import Mathlib

/-!
Verification of the image redaction engine of `scripts/anonymize_pdf.py`
(EDGAR-Defense-Toolkit).  The definitions below are a shallow embedding of
the Python source: `_fuzzy_match`, `sample_bg_color` and the three matching
passes of `redact_image` are translated function by function.  Images are
modelled as a width, a height and a total pixel function; the external
pieces (OCR token source, font rendering) are parameters of the model.
-/

namespace AnonPdf

/-- An OCR token: one entry of the parallel arrays
`data["text"] / data["conf"] / data["left"] / data["top"] / data["width"] / data["height"]`
returned by `_ocr_image`. -/
structure Token where
  text : String
  conf : Int
  left : Int
  top : Int
  width : Int
  height : Int
deriving Repr, DecidableEq

/-- The OCR output consumed by `redact_image`: `nBoxes = len(data["text"])`
and `tok i` the `i`-th token.  All index accesses in the source are below
`nBoxes`, so a total function is a faithful model of the parallel lists. -/
structure OcrData where
  nBoxes : Nat
  tok : Nat → Token

/-- An RGB pixel value, as returned by `Image.getpixel` on an RGB image. -/
abbrev Color := Int × Int × Int

/-- A raster image: dimensions plus a total pixel map.  `redact_image`
normalizes to RGB mode first, so a single color type suffices. -/
structure ImageM where
  width : Int
  height : Int
  pix : Int → Int → Color

/-- Model of `ImageDraw.text`: an abstract font-rendering effect, taken as a
parameter because actual glyph rasterization is external to the engine.
Arguments: image, x, y, text, fill color, font size. -/
abbrev DrawText := ImageM → Int → Int → String → Color → Int → ImageM

/-- Model of `draw.rectangle([x, y, x2, y2], fill=c)`: PIL paints the
rectangle inclusive of both corner points. -/
def fillRect (img : ImageM) (x y x2 y2 : Int) (c : Color) : ImageM :=
  { img with pix := fun px py =>
      if x ≤ px ∧ px ≤ x2 ∧ y ≤ py ∧ py ≤ y2 then c else img.pix px py }

/-- Python's `str.lower()`, modelled as per-character lowering. -/
def pyLower (s : String) : String := String.mk (s.toList.map Char.toLower)

/-- Python's `str.strip()`: drop leading and trailing whitespace. -/
def pyStrip (s : String) : String :=
  String.mk (((s.toList.dropWhile Char.isWhitespace).reverse.dropWhile
    Char.isWhitespace).reverse)

/-- Accumulator loop for `pySplit`: the first argument is the remaining
input, the second the current word reversed. -/
def pySplitGo : List Char → List Char → List String
  | [], acc => if acc.isEmpty then [] else [String.mk acc.reverse]
  | c :: cs, acc =>
    if c.isWhitespace then
      if acc.isEmpty then pySplitGo cs [] else String.mk acc.reverse :: pySplitGo cs []
    else pySplitGo cs (c :: acc)

/-- Python's `str.split()` with no separator: the maximal nonwhitespace
runs, in order (no empty pieces). -/
def pySplit (s : String) : List String := pySplitGo s.toList []

/-- Python's `' ' in s`: the string contains a space character. -/
def containsSpace (s : String) : Bool := s.toList.any (fun c => decide (c = ' '))

/-- Python's `range(a, b)` over integers. -/
def intRange (a b : Int) : List Int :=
  (List.range (b - a).toNat).map (fun k => a + (k : Int))

/-- The fixed `margin` default argument of `sample_bg_color`. -/
def marginDefault : Int := 4

/-- The pixel list built by the two sampling loops of `sample_bg_color`:
for each `dx` across the clamped horizontal extent, the pixels on the two
horizontal border lines; then for each `dy` across the clamped vertical
extent, the pixels on the two vertical border lines. -/
def samplePixels (img : ImageM) (x y w h : Int) : List Color :=
  let m := marginDefault
  ((intRange (max 0 (x - m)) (min img.width (x + w + m))).flatMap (fun dx =>
    [img.pix dx (max 0 (y - m)), img.pix dx (min (img.height - 1) (y + h + m))]))
  ++
  ((intRange (max 0 (y - m)) (min img.height (y + h + m))).flatMap (fun dy =>
    [img.pix (max 0 (x - m)) dy, img.pix (min (img.width - 1) (x + w + m)) dy]))

/-- Number of occurrences of a color in the sampled pixel list
(the count a `Counter` associates to the key). -/
def countOcc (pixels : List Color) (c : Color) : Nat :=
  pixels.countP (fun p => decide (p = c))

/-- The key list of `Counter(pixels)`: distinct colors in first-occurrence
order. -/
def dedupKeys : List Color → List Color
  | [] => []
  | c :: cs => c :: dedupKeys (cs.filter (fun d => decide (d ≠ c)))
termination_by l => l.length
decreasing_by
  simp only [List.length_cons]
  exact Nat.lt_succ_of_le (List.length_filter_le _ _)

/-- `Counter.most_common(1)[0][0]` on a nonempty counter: scan the keys in
first-occurrence order, replacing the running best only on a strictly
larger count (so ties keep the earlier key, matching the stability of
`heapq.nlargest`). -/
def pickFirstMax (cnt : Color → Nat) (best : Color) : List Color → Color
  | [] => best
  | k :: ks => if cnt best < cnt k then pickFirstMax cnt k ks else pickFirstMax cnt best ks

/-- `sample_bg_color(img, x, y, w, h)`: most common color around the
bounding box border, `(255, 255, 255)` when no pixel is sampled. -/
def sample_bg_color (img : ImageM) (x y w h : Int) : Color :=
  let pixels := samplePixels img x y w h
  match dedupKeys pixels with
  | [] => (255, 255, 255)
  | k :: ks => pickFirstMax (countOcc pixels) k ks

/-- Number of positions at which the two character lists agree
(`sum(1 for a, b in zip(u, v) if a == b)`; `zip` truncates to the shorter
list). -/
def countEq : List Char → List Char → Nat
  | a :: as, b :: bs => (if a = b then 1 else 0) + countEq as bs
  | _, _ => 0

/-- `abs(len(u) - len(v))` on natural lengths. -/
def lenDiff (m n : Nat) : Nat := max m n - min m n

/-- `_fuzzy_match(ocr_word, target)` with the default threshold `0.75`:
empty strings never match; exact case-insensitive equality matches; a
length difference above 2 rejects; targets of length at most 3 then
require the exact match already tested; otherwise match iff the
positional character-overlap ratio reaches 3/4 (the float comparison
`matches / shorter >= 0.75` is the exact rational comparison
`4 * matches >= 3 * shorter`). -/
def fuzzyMatch (ocrWord target : String) : Bool :=
  if ocrWord = "" ∨ target = "" then false
  else if pyLower ocrWord = pyLower target then true
  else if 2 < lenDiff ocrWord.length target.length then false
  else if target.length ≤ 3 then false
  else
    let shorter := min ocrWord.length target.length
    let m := countEq (pyLower ocrWord).toList (pyLower target).toList
    decide (3 * shorter ≤ 4 * m)

/-- One entry of Python dict assignment `d[k] = v`: replace in place when
the key exists (keeping its position), append otherwise. -/
def dictInsert (d : List (String × String)) (k v : String) : List (String × String) :=
  if d.any (fun p => decide (p.1 = k)) then
    d.map (fun p => if p.1 = k then (k, v) else p)
  else d ++ [(k, v)]

/-- `lc_map = {k.lower(): v for k, v in name_map.items()}`, keys in dict
insertion order. -/
def mkLcMap (nameMap : List (String × String)) : List (String × String) :=
  nameMap.foldl (fun d p => dictInsert d (pyLower p.1) p.2) []

/-- `lc_map.keys()` in insertion order. -/
def dictKeys (d : List (String × String)) : List String := d.map Prod.fst

/-- `lc_map[name_lc]` (the source only looks up existing keys; a missing
key defaults to the empty string in the model). -/
def dictLookup (d : List (String × String)) (k : String) : String :=
  match d.find? (fun p => decide (p.1 = k)) with
  | some p => p.2
  | none => ""

/-- One insertion step of the stable descending-by-length sort: the new key
goes after every key whose string length is greater than or equal to its
own, so keys of equal length keep their original relative order. -/
def insertByLen (x : String) : List String → List String
  | [] => [x]
  | y :: ys => if x.length ≤ y.length then y :: insertByLen x ys else x :: y :: ys

/-- `sorted(lc_map.keys(), key=len, reverse=True)`: a stable sort of the
keys by string length, descending. -/
def sortedNames (keys : List String) : List String :=
  keys.foldl (fun acc k => insertByLen k acc) []

/-- A matched span as painted by one pass of `redact_image`: the starting
token index, the number of consumed tokens, the replacement text, the
painted rectangle, and which pass produced it. -/
structure Span where
  start : Nat
  size : Nat
  repl : String
  rx : Int
  ry : Int
  rx2 : Int
  ry2 : Int
  passNo : Nat
deriving Repr, DecidableEq

/-- The token indices consumed by a span. -/
def spanIdxList (s : Span) : List Nat := (List.range s.size).map (fun j => s.start + j)

/-- The mutable state threaded through the three passes: the image being
drawn on, the `used_indices` set, the spans painted so far, and `count`. -/
structure RState where
  img : ImageM
  used : List Nat
  spans : List Span
  count : Nat

/-- `used_indices.add(i)` on the set modelled as a duplicate-free list. -/
def usedAdd (used : List Nat) (i : Nat) : List Nat :=
  if i ∈ used then used else i :: used

/-- `for k in range(k): used_indices.add(i + k)`: consume a whole window. -/
def addWindow (used : List Nat) (i k : Nat) : List Nat :=
  (List.range k).foldl (fun u j => usedAdd u (i + j)) used

/-- `min(data["top"][first + k] for k in range(k))` for a window of `k`
tokens starting at `i` (for `k ≥ 1` the seed is the first member, so this
is the exact minimum). -/
def minTop (tok : Nat → Token) (i k : Nat) : Int :=
  (List.range k).foldl (fun acc j => min acc (tok (i + j)).top) (tok i).top

/-- `max(data["top"][first + k] + data["height"][first + k] for k in range(k))`
for a window of `k` tokens starting at `i`. -/
def maxBot (tok : Nat → Token) (i k : Nat) : Int :=
  (List.range k).foldl
    (fun acc j => max acc ((tok (i + j)).top + (tok (i + j)).height))
    ((tok i).top + (tok i).height)

/-- Text color choice: black when the background brightness
`sum(bg[:3]) / 3` exceeds 128, white otherwise. -/
def textColorFor (bg : Color) : Color :=
  if 3 * 128 < bg.1 + bg.2.1 + bg.2.2 then (0, 0, 0) else (255, 255, 255)

/-- The inner window check of the first pass, starting at word offset `j`:
every token of the window must be unconsumed, fuzzy-match its word, and
have non-negative confidence. -/
def passOneWindowOk (tok : Nat → Token) (used : List Nat) (i : Nat) :
    List String → Nat → Bool
  | [], _ => true
  | nw :: rest, j =>
    if (i + j) ∈ used then false
    else if !(fuzzyMatch (pyStrip (tok (i + j)).text) nw) then false
    else if (tok (i + j)).conf < 0 then false
    else passOneWindowOk tok used i rest (j + 1)

/-- One window position of the first pass: on a match, paint the span
rectangle with the sampled background, draw the replacement, consume the
window's indices and bump the count. -/
def passOneStep (drawText : DrawText) (tok : Nat → Token) (nws : List String)
    (repl : String) (st : RState) (i : Nat) : RState :=
  if i ∈ st.used then st
  else if passOneWindowOk tok st.used i nws 0 then
    let k := nws.length
    let x := (tok i).left
    let y := minTop tok i k
    let last := i + k - 1
    let x2 := (tok last).left + (tok last).width
    let y2 := maxBot tok i k
    let bg := sample_bg_color st.img x y (x2 - x) (y2 - y)
    let img1 := fillRect st.img x y x2 y2 bg
    let img2 := drawText img1 (x + 2) (y + 1) repl (textColorFor bg) (max 10 (y2 - y - 4))
    { img := img2
      used := addWindow st.used i k
      spans := st.spans ++ [⟨i, k, repl, x, y, x2, y2, 1⟩]
      count := st.count + 1 }
  else st

/-- The first pass for one name: skip single-word names, otherwise slide
the window across all positions. -/
def passOneTerm (drawText : DrawText) (data : OcrData)
    (lcMap : List (String × String)) (st : RState) (nameLc : String) : RState :=
  let nws := pySplit nameLc
  if nws.length < 2 then st
  else
    (List.range (data.nBoxes + 1 - nws.length)).foldl
      (passOneStep drawText data.tok nws (dictLookup lcMap nameLc)) st

/-- First pass: multi-word names, longest key (by string length) first. -/
def passOne (drawText : DrawText) (data : OcrData)
    (lcMap : List (String × String)) (st : RState) : RState :=
  (sortedNames (dictKeys lcMap)).foldl (passOneTerm drawText data lcMap) st

/-- The second pass's scan of the name map: the first single-word key that
fuzzy-matches the lowered token text wins. -/
def findNameRepl (lcMap : List (String × String)) (wlc : String) : Option String :=
  match lcMap with
  | [] => none
  | (target, repl) :: rest =>
    if containsSpace target then findNameRepl rest wlc
    else if fuzzyMatch wlc target then some repl
    else findNameRepl rest wlc

/-- The second pass's scan of the extra-redact terms: true when some
single-word term fuzzy-matches (the replacement is then empty). -/
def findExtraMatch (extraLc : List String) (wlc : String) : Bool :=
  extraLc.any (fun t => (!containsSpace t) && fuzzyMatch wlc t)

/-- One token of the second pass: skip consumed, empty, or
negative-confidence tokens; otherwise look the lowered text up in the name
map and then the extra-redact list, and paint the single-token box on a
match (drawing the replacement only when it is nonempty). -/
def passTwoStep (drawText : DrawText) (tok : Nat → Token)
    (lcMap : List (String × String)) (extraLc : List String)
    (st : RState) (i : Nat) : RState :=
  if i ∈ st.used then st
  else
    let w := pyStrip (tok i).text
    if w = "" then st
    else if (tok i).conf < 0 then st
    else
      let wlc := pyLower w
      let found :=
        match findNameRepl lcMap wlc with
        | some r => some r
        | none => if findExtraMatch extraLc wlc then some "" else none
      match found with
      | none => st
      | some repl =>
        let x := (tok i).left
        let y := (tok i).top
        let bw := (tok i).width
        let bh := (tok i).height
        let bg := sample_bg_color st.img x y bw bh
        let img1 := fillRect st.img x y (x + bw) (y + bh) bg
        let img2 :=
          if repl = "" then img1
          else drawText img1 (x + 2) (y + 1) repl (textColorFor bg) (max 10 (bh - 4))
        { img := img2
          used := usedAdd st.used i
          spans := st.spans ++ [⟨i, 1, repl, x, y, x + bw, y + bh, 2⟩]
          count := st.count + 1 }

/-- Second pass over every token index. -/
def passTwo (drawText : DrawText) (data : OcrData)
    (lcMap : List (String × String)) (extraLc : List String) (st : RState) : RState :=
  (List.range data.nBoxes).foldl (passTwoStep drawText data.tok lcMap extraLc) st

/-- The inner window check of the third pass: like the first pass but with
no confidence check. -/
def passThreeWindowOk (tok : Nat → Token) (used : List Nat) (i : Nat) :
    List String → Nat → Bool
  | [], _ => true
  | tw :: rest, j =>
    if (i + j) ∈ used then false
    else if !(fuzzyMatch (pyStrip (tok (i + j)).text) tw) then false
    else passThreeWindowOk tok used i rest (j + 1)

/-- One window position of the third pass: paint the span rectangle with
the sampled background (no replacement text is drawn). -/
def passThreeStep (tok : Nat → Token) (tws : List String)
    (st : RState) (i : Nat) : RState :=
  if i ∈ st.used then st
  else if passThreeWindowOk tok st.used i tws 0 then
    let k := tws.length
    let x := (tok i).left
    let y := minTop tok i k
    let last := i + k - 1
    let x2 := (tok last).left + (tok last).width
    let y2 := maxBot tok i k
    let bg := sample_bg_color st.img x y (x2 - x) (y2 - y)
    { img := fillRect st.img x y x2 y2 bg
      used := addWindow st.used i k
      spans := st.spans ++ [⟨i, k, "", x, y, x2, y2, 3⟩]
      count := st.count + 1 }
  else st

/-- The third pass for one extra-redact term: skip single-word terms,
otherwise slide the window across all positions. -/
def passThreeTerm (data : OcrData) (st : RState) (term : String) : RState :=
  let tws := pySplit term
  if tws.length < 2 then st
  else (List.range (data.nBoxes + 1 - tws.length)).foldl (passThreeStep data.tok tws) st

/-- Third pass: multi-word extra-redact terms in list order. -/
def passThree (data : OcrData) (extraLc : List String) (st : RState) : RState :=
  extraLc.foldl (passThreeTerm data) st

/-- The body of `redact_image` after a successful OCR call: build the
lowercase lookup and the lowered extra-redact list, then run the three
passes over the fresh state. -/
def redactCore (drawText : DrawText) (img : ImageM) (data : OcrData)
    (nameMap : List (String × String)) (extraRedact : List String) : RState :=
  passThree data (extraRedact.map pyLower)
    (passTwo drawText data (mkLcMap nameMap) (extraRedact.map pyLower)
      (passOne drawText data (mkLcMap nameMap)
        { img := img, used := [], spans := [], count := 0 }))

/-- `redact_image(img, name_map, extra_redact)`: the token source is a
parameter returning either the OCR data or the engine-unavailable error
(`pytesseract.TesseractNotFoundError`); on that error the image is
returned unchanged with zero redactions. -/
def redact_image (drawText : DrawText) (ocr : ImageM → Except Unit OcrData)
    (img : ImageM) (nameMap : List (String × String)) (extraRedact : List String) :
    ImageM × Nat :=
  match ocr img with
  | Except.error _ => (img, 0)
  | Except.ok data =>
    let st := redactCore drawText img data nameMap extraRedact
    (st.img, st.count)


/-! ### Generic fold lemmas -/

/-- A fold whose step fixes the accumulator on every element leaves it
unchanged. -/
theorem foldl_fix {α β : Type} (f : β → α → β) :
    ∀ (xs : List α) (b : β), (∀ a ∈ xs, f b a = b) → xs.foldl f b = b := by
  intro xs
  induction xs with
  | nil => intro b _; rfl
  | cons a as ih =>
    intro b h
    simp only [List.foldl_cons, h a (by simp)]
    exact ih b (fun a' ha' => h a' (by simp [ha']))

/-- A fold whose step preserves an invariant preserves it. -/
theorem foldl_pres {α β : Type} (P : β → Prop) (f : β → α → β)
    (h : ∀ b a, P b → P (f b a)) :
    ∀ (xs : List α) (b : β), P b → P (xs.foldl f b) := by
  intro xs
  induction xs with
  | nil => intro b hb; exact hb
  | cons a as ih => intro b hb; exact ih (f b a) (h b a hb)

/-! ### The used-indices set -/

theorem mem_usedAdd {u : List Nat} {i m : Nat} :
    m ∈ usedAdd u i ↔ m = i ∨ m ∈ u := by
  unfold usedAdd
  split
  · constructor
    · exact Or.inr
    · rintro (rfl | h)
      · assumption
      · exact h
  · simp [List.mem_cons]

theorem mem_addWindow {used : List Nat} {i : Nat} :
    ∀ {k m : Nat}, m ∈ addWindow used i k ↔ m ∈ used ∨ ∃ j, j < k ∧ m = i + j := by
  intro k
  induction k with
  | zero => simp [addWindow]
  | succ k ih =>
    intro m
    have step : addWindow used i (k + 1) = usedAdd (addWindow used i k) (i + k) := by
      unfold addWindow
      rw [List.range_succ, List.foldl_append, List.foldl_cons, List.foldl_nil]
    rw [step, mem_usedAdd, ih]
    constructor
    · rintro (rfl | h | ⟨j, hj, rfl⟩)
      · exact Or.inr ⟨k, Nat.lt_succ_self k, rfl⟩
      · exact Or.inl h
      · exact Or.inr ⟨j, Nat.lt_succ_of_lt hj, rfl⟩
    · rintro (h | ⟨j, hj, rfl⟩)
      · exact Or.inr (Or.inl h)
      · rcases Nat.lt_succ_iff_lt_or_eq.mp hj with h | rfl
        · exact Or.inr (Or.inr ⟨j, h, rfl⟩)
        · exact Or.inl rfl

/-! ### Window-check specifications -/

theorem passOneWindowOk_spec (tok : Nat → Token) (used : List Nat) (i : Nat) :
    ∀ (nws : List String) (j0 : Nat),
      passOneWindowOk tok used i nws j0 = true →
      ∀ j < nws.length, (i + (j0 + j)) ∉ used ∧ 0 ≤ (tok (i + (j0 + j))).conf := by
  intro nws
  induction nws with
  | nil => intro j0 _ j hj; simp at hj
  | cons nw rest ih =>
    intro j0 hok
    have h1 : (i + j0) ∉ used := by
      intro hmem
      simp [passOneWindowOk, hmem] at hok
    have h3 : ¬ (tok (i + j0)).conf < 0 := by
      intro hc
      by_cases h2 : fuzzyMatch (pyStrip (tok (i + j0)).text) nw = true
      · simp [passOneWindowOk, h1, h2, hc] at hok
      · simp [passOneWindowOk, h1, h2] at hok
    have hrec : passOneWindowOk tok used i rest (j0 + 1) = true := by
      by_cases h2 : fuzzyMatch (pyStrip (tok (i + j0)).text) nw = true
      · simpa [passOneWindowOk, h1, h2, h3] using hok
      · simp [passOneWindowOk, h1, h2, h3] at hok
    intro j hj
    cases j with
    | zero => exact ⟨by simpa using h1, by simpa using Int.not_lt.mp h3⟩
    | succ j' =>
      have h := ih (j0 + 1) hrec j' (by simpa [Nat.succ_lt_succ_iff] using hj)
      have harith : i + (j0 + 1 + j') = i + (j0 + (j' + 1)) := by omega
      rw [harith] at h
      exact h

theorem passThreeWindowOk_spec (tok : Nat → Token) (used : List Nat) (i : Nat) :
    ∀ (tws : List String) (j0 : Nat),
      passThreeWindowOk tok used i tws j0 = true →
      ∀ j < tws.length, (i + (j0 + j)) ∉ used := by
  intro tws
  induction tws with
  | nil => intro j0 _ j hj; simp at hj
  | cons tw rest ih =>
    intro j0 hok
    have h1 : (i + j0) ∉ used := by
      intro hmem
      simp [passThreeWindowOk, hmem] at hok
    have hrec : passThreeWindowOk tok used i rest (j0 + 1) = true := by
      by_cases h2 : fuzzyMatch (pyStrip (tok (i + j0)).text) tw = true
      · simpa [passThreeWindowOk, h1, h2] using hok
      · simp [passThreeWindowOk, h1, h2] at hok
    intro j hj
    cases j with
    | zero => simpa using h1
    | succ j' =>
      have h := ih (j0 + 1) hrec j' (by simpa [Nat.succ_lt_succ_iff] using hj)
      have harith : i + (j0 + 1 + j') = i + (j0 + (j' + 1)) := by omega
      rw [harith] at h
      exact h

/-! ### Minimum and maximum folds over a window -/

theorem foldl_min_le (f : Nat → Int) :
    ∀ (l : List Nat) (a : Int),
      l.foldl (fun acc j => min acc (f j)) a ≤ a ∧
      ∀ j ∈ l, l.foldl (fun acc j => min acc (f j)) a ≤ f j := by
  intro l
  induction l with
  | nil => intro a; exact ⟨le_refl a, by simp⟩
  | cons j l ih =>
    intro a
    simp only [List.foldl_cons]
    refine ⟨(ih (min a (f j))).1.trans (min_le_left _ _), ?_⟩
    intro j' hj'
    rcases List.mem_cons.mp hj' with rfl | hj'
    · exact (ih (min a (f j'))).1.trans (min_le_right _ _)
    · exact (ih (min a (f j))).2 j' hj'

theorem foldl_min_attained (f : Nat → Int) :
    ∀ (l : List Nat) (a : Int),
      l.foldl (fun acc j => min acc (f j)) a = a ∨
      ∃ j ∈ l, l.foldl (fun acc j => min acc (f j)) a = f j := by
  intro l
  induction l with
  | nil => intro a; exact Or.inl rfl
  | cons j l ih =>
    intro a
    simp only [List.foldl_cons]
    rcases ih (min a (f j)) with h | ⟨j', hj', h⟩
    · rcases min_choice a (f j) with hm | hm
      · exact Or.inl (h.trans hm)
      · exact Or.inr ⟨j, by simp, h.trans hm⟩
    · exact Or.inr ⟨j', by simp [hj'], h⟩

theorem foldl_max_ge (f : Nat → Int) :
    ∀ (l : List Nat) (a : Int),
      a ≤ l.foldl (fun acc j => max acc (f j)) a ∧
      ∀ j ∈ l, f j ≤ l.foldl (fun acc j => max acc (f j)) a := by
  intro l
  induction l with
  | nil => intro a; exact ⟨le_refl a, by simp⟩
  | cons j l ih =>
    intro a
    simp only [List.foldl_cons]
    refine ⟨(le_max_left _ _).trans (ih (max a (f j))).1, ?_⟩
    intro j' hj'
    rcases List.mem_cons.mp hj' with rfl | hj'
    · exact (le_max_right _ _).trans (ih (max a (f j'))).1
    · exact (ih (max a (f j))).2 j' hj'

theorem foldl_max_attained (f : Nat → Int) :
    ∀ (l : List Nat) (a : Int),
      l.foldl (fun acc j => max acc (f j)) a = a ∨
      ∃ j ∈ l, l.foldl (fun acc j => max acc (f j)) a = f j := by
  intro l
  induction l with
  | nil => intro a; exact Or.inl rfl
  | cons j l ih =>
    intro a
    simp only [List.foldl_cons]
    rcases ih (max a (f j)) with h | ⟨j', hj', h⟩
    · rcases max_choice a (f j) with hm | hm
      · exact Or.inl (h.trans hm)
      · exact Or.inr ⟨j, by simp, h.trans hm⟩
    · exact Or.inr ⟨j', by simp [hj'], h⟩

theorem minTop_le (tok : Nat → Token) (i k : Nat) :
    ∀ j < k, minTop tok i k ≤ (tok (i + j)).top := by
  intro j hj
  exact (foldl_min_le (fun j => (tok (i + j)).top) (List.range k) (tok i).top).2 j
    (List.mem_range.mpr hj)

theorem minTop_attained (tok : Nat → Token) (i k : Nat) (hk : 0 < k) :
    ∃ j, j < k ∧ minTop tok i k = (tok (i + j)).top := by
  rcases foldl_min_attained (fun j => (tok (i + j)).top) (List.range k) (tok i).top with
    h | ⟨j, hj, h⟩
  · exact ⟨0, hk, by simpa using h⟩
  · exact ⟨j, List.mem_range.mp hj, h⟩

theorem maxBot_ge (tok : Nat → Token) (i k : Nat) :
    ∀ j < k, (tok (i + j)).top + (tok (i + j)).height ≤ maxBot tok i k := by
  intro j hj
  exact (foldl_max_ge (fun j => (tok (i + j)).top + (tok (i + j)).height)
    (List.range k) ((tok i).top + (tok i).height)).2 j (List.mem_range.mpr hj)

theorem maxBot_attained (tok : Nat → Token) (i k : Nat) (hk : 0 < k) :
    ∃ j, j < k ∧ maxBot tok i k = (tok (i + j)).top + (tok (i + j)).height := by
  rcases foldl_max_attained (fun j => (tok (i + j)).top + (tok (i + j)).height)
    (List.range k) ((tok i).top + (tok i).height) with h | ⟨j, hj, h⟩
  · exact ⟨0, hk, by simpa using h⟩
  · exact ⟨j, List.mem_range.mp hj, h⟩

theorem minTop_one (tok : Nat → Token) (i : Nat) : minTop tok i 1 = (tok i).top := by
  show List.foldl _ _ (List.range 1) = _
  rw [List.range_succ, List.range_zero]
  simp

theorem maxBot_one (tok : Nat → Token) (i : Nat) :
    maxBot tok i 1 = (tok i).top + (tok i).height := by
  show List.foldl _ _ (List.range 1) = _
  rw [List.range_succ, List.range_zero]
  simp

/-! ### The span invariant maintained by the three passes -/

/-- The token indices consumed by a span, unfolded. -/
theorem mem_spanIdxList {s : Span} {k : Nat} :
    k ∈ spanIdxList s ↔ ∃ j, j < s.size ∧ k = s.start + j := by
  simp only [spanIdxList, List.mem_map, List.mem_range]
  constructor
  · rintro ⟨j, hj, rfl⟩; exact ⟨j, hj, rfl⟩
  · rintro ⟨j, hj, rfl⟩; exact ⟨j, hj, rfl⟩

/-- Shape facts about a single painted span: it is nonempty, its painted
rectangle is the one computed by the source (left edge of the first member,
minimum top, right edge of the last member, maximum bottom), and spans of
the first two passes contain only tokens of non-negative confidence. -/
def SpanGood (tok : Nat → Token) (s : Span) : Prop :=
  1 ≤ s.size ∧
  s.rx = (tok s.start).left ∧
  s.ry = minTop tok s.start s.size ∧
  s.rx2 = (tok (s.start + s.size - 1)).left + (tok (s.start + s.size - 1)).width ∧
  s.ry2 = maxBot tok s.start s.size ∧
  (s.passNo ≠ 3 → ∀ k ∈ spanIdxList s, 0 ≤ (tok k).conf)

/-- No token index belongs to two distinct spans of the list. -/
def spansDisjoint (l : List Span) : Prop :=
  l.Pairwise (fun s1 s2 => ∀ k, k ∈ spanIdxList s1 → k ∉ spanIdxList s2)

/-- The invariant threaded through the three passes: every painted span
only uses consumed indices, the spans are pairwise disjoint, and each span
is well formed. -/
def StGood (tok : Nat → Token) (st : RState) : Prop :=
  (∀ s ∈ st.spans, ∀ k ∈ spanIdxList s, k ∈ st.used) ∧
  spansDisjoint st.spans ∧
  (∀ s ∈ st.spans, SpanGood tok s)

/-- Appending a well-formed span whose indices are fresh, while growing the
consumed set to cover them, preserves the invariant. -/
theorem stGood_extend (tok : Nat → Token) (st : RState) (img2 : ImageM) (sp : Span)
    (used2 : List Nat) (cnt2 : Nat)
    (hgood : SpanGood tok sp)
    (hfresh : ∀ k ∈ spanIdxList sp, k ∉ st.used)
    (hmono : ∀ k, k ∈ st.used → k ∈ used2)
    (hcover : ∀ k ∈ spanIdxList sp, k ∈ used2)
    (h : StGood tok st) :
    StGood tok { img := img2, used := used2, spans := st.spans ++ [sp], count := cnt2 } := by
  obtain ⟨hused, hdisj, hgoods⟩ := h
  refine ⟨?_, ?_, ?_⟩
  · intro s hs k hk
    rcases List.mem_append.mp hs with hs | hs
    · exact hmono k (hused s hs k hk)
    · rw [List.mem_singleton.mp hs] at hk
      exact hcover k hk
  · unfold spansDisjoint at hdisj ⊢
    rw [List.pairwise_append]
    refine ⟨hdisj, List.pairwise_singleton _ _, ?_⟩
    intro s1 hs1 s2 hs2 k hk1
    rw [List.mem_singleton.mp hs2]
    exact fun hk2 => hfresh k hk2 (hused s1 hs1 k hk1)
  · intro s hs
    rcases List.mem_append.mp hs with hs | hs
    · exact hgoods s hs
    · rw [List.mem_singleton.mp hs]
      exact hgood

theorem passOneStep_stGood (drawText : DrawText) (tok : Nat → Token)
    (nws : List String) (repl : String) (hn : 1 ≤ nws.length) (st : RState) (i : Nat)
    (h : StGood tok st) : StGood tok (passOneStep drawText tok nws repl st i) := by
  unfold passOneStep
  by_cases h1 : i ∈ st.used
  · rwa [if_pos h1]
  rw [if_neg h1]
  by_cases h2 : passOneWindowOk tok st.used i nws 0 = true
  · rw [if_pos h2]
    have hw := passOneWindowOk_spec tok st.used i nws 0 h2
    refine stGood_extend tok st _ _ _ _ ?_ ?_ ?_ ?_ h
    · refine ⟨hn, rfl, rfl, rfl, rfl, fun _ k hk => ?_⟩
      obtain ⟨j, hj, rfl⟩ := mem_spanIdxList.mp hk
      simpa using (hw j hj).2
    · intro k hk
      obtain ⟨j, hj, rfl⟩ := mem_spanIdxList.mp hk
      simpa using (hw j hj).1
    · intro k hk
      exact mem_addWindow.mpr (Or.inl hk)
    · intro k hk
      obtain ⟨j, hj, rfl⟩ := mem_spanIdxList.mp hk
      exact mem_addWindow.mpr (Or.inr ⟨j, hj, rfl⟩)
  · rwa [if_neg h2]

theorem passTwoPaint_stGood (tok : Nat → Token) (st : RState) (i : Nat)
    (repl : String) (img2 : ImageM)
    (h1 : i ∉ st.used) (h3 : ¬ (tok i).conf < 0) (h : StGood tok st) :
    StGood tok
      { img := img2
        used := usedAdd st.used i
        spans := st.spans ++ [⟨i, 1, repl, (tok i).left, (tok i).top,
          (tok i).left + (tok i).width, (tok i).top + (tok i).height, 2⟩]
        count := st.count + 1 } := by
  refine stGood_extend tok st _ _ _ _ ?_ ?_ ?_ ?_ h
  · refine ⟨le_refl 1, rfl, (minTop_one tok i).symm, ?_, ?_, fun _ k hk => ?_⟩
    · simp
    · simpa using (maxBot_one tok i).symm
    · obtain ⟨j, hj, rfl⟩ := mem_spanIdxList.mp hk
      interval_cases j
      simpa using Int.not_lt.mp h3
  · intro k hk
    obtain ⟨j, hj, rfl⟩ := mem_spanIdxList.mp hk
    interval_cases j
    simpa using h1
  · intro k hk
    exact mem_usedAdd.mpr (Or.inr hk)
  · intro k hk
    obtain ⟨j, hj, rfl⟩ := mem_spanIdxList.mp hk
    interval_cases j
    exact mem_usedAdd.mpr (Or.inl (by simp))

theorem passTwoStep_stGood (drawText : DrawText) (tok : Nat → Token)
    (lcMap : List (String × String)) (extraLc : List String) (st : RState) (i : Nat)
    (h : StGood tok st) : StGood tok (passTwoStep drawText tok lcMap extraLc st i) := by
  unfold passTwoStep
  by_cases h1 : i ∈ st.used
  · rwa [if_pos h1]
  rw [if_neg h1]
  by_cases h2 : pyStrip (tok i).text = ""
  · rwa [if_pos h2]
  rw [if_neg h2]
  by_cases h3 : (tok i).conf < 0
  · rwa [if_pos h3]
  rw [if_neg h3]
  dsimp only
  rcases hname : findNameRepl lcMap (pyLower (pyStrip (tok i).text)) with _ | r
  · by_cases hex : findExtraMatch extraLc (pyLower (pyStrip (tok i).text)) = true
    · rw [if_pos hex]
      exact passTwoPaint_stGood tok st i "" _ h1 h3 h
    · rw [if_neg hex]
      exact h
  · exact passTwoPaint_stGood tok st i r _ h1 h3 h

theorem passThreeStep_stGood (tok : Nat → Token)
    (tws : List String) (hn : 1 ≤ tws.length) (st : RState) (i : Nat)
    (h : StGood tok st) : StGood tok (passThreeStep tok tws st i) := by
  unfold passThreeStep
  by_cases h1 : i ∈ st.used
  · rwa [if_pos h1]
  rw [if_neg h1]
  by_cases h2 : passThreeWindowOk tok st.used i tws 0 = true
  · rw [if_pos h2]
    have hw := passThreeWindowOk_spec tok st.used i tws 0 h2
    refine stGood_extend tok st _ _ _ _ ?_ ?_ ?_ ?_ h
    · exact ⟨hn, rfl, rfl, rfl, rfl, fun hpass => absurd rfl hpass⟩
    · intro k hk
      obtain ⟨j, hj, rfl⟩ := mem_spanIdxList.mp hk
      simpa using hw j hj
    · intro k hk
      exact mem_addWindow.mpr (Or.inl hk)
    · intro k hk
      obtain ⟨j, hj, rfl⟩ := mem_spanIdxList.mp hk
      exact mem_addWindow.mpr (Or.inr ⟨j, hj, rfl⟩)
  · rwa [if_neg h2]

theorem passOneTerm_stGood (drawText : DrawText) (data : OcrData)
    (lcMap : List (String × String)) (st : RState) (nameLc : String)
    (h : StGood data.tok st) :
    StGood data.tok (passOneTerm drawText data lcMap st nameLc) := by
  unfold passOneTerm
  by_cases hn : (pySplit nameLc).length < 2
  · rwa [if_pos hn]
  rw [if_neg hn]
  exact foldl_pres _ _
    (fun st i h => passOneStep_stGood drawText data.tok _ _ (by omega) st i h) _ st h

theorem passOne_stGood (drawText : DrawText) (data : OcrData)
    (lcMap : List (String × String)) (st : RState)
    (h : StGood data.tok st) : StGood data.tok (passOne drawText data lcMap st) :=
  foldl_pres _ _ (fun st n h => passOneTerm_stGood drawText data lcMap st n h) _ st h

theorem passTwo_stGood (drawText : DrawText) (data : OcrData)
    (lcMap : List (String × String)) (extraLc : List String) (st : RState)
    (h : StGood data.tok st) : StGood data.tok (passTwo drawText data lcMap extraLc st) :=
  foldl_pres _ _
    (fun st i h => passTwoStep_stGood drawText data.tok lcMap extraLc st i h) _ st h

theorem passThreeTerm_stGood (data : OcrData) (st : RState) (term : String)
    (h : StGood data.tok st) : StGood data.tok (passThreeTerm data st term) := by
  unfold passThreeTerm
  by_cases hn : (pySplit term).length < 2
  · rwa [if_pos hn]
  rw [if_neg hn]
  exact foldl_pres _ _
    (fun st i h => passThreeStep_stGood data.tok _ (by omega) st i h) _ st h

theorem passThree_stGood (data : OcrData) (extraLc : List String) (st : RState)
    (h : StGood data.tok st) : StGood data.tok (passThree data extraLc st) :=
  foldl_pres _ _ (fun st t h => passThreeTerm_stGood data st t h) _ st h

/-- Master invariant: the final state of `redact_image`'s three passes
satisfies the span invariant. -/
theorem redactCore_stGood (drawText : DrawText) (img : ImageM) (data : OcrData)
    (nameMap : List (String × String)) (extraRedact : List String) :
    StGood data.tok (redactCore drawText img data nameMap extraRedact) := by
  unfold redactCore
  apply passThree_stGood
  apply passTwo_stGood
  apply passOne_stGood
  exact ⟨by simp, List.Pairwise.nil, by simp⟩

/-! ### Concrete fixtures for the claims -/

/-- A degenerate image: the border sampler visits no pixel of it, so every
background sample is the default white. -/
def img0 : ImageM := { width := 0, height := 0, pix := fun _ _ => (255, 255, 255) }

/-- A trivial instantiation of the abstract text renderer. -/
def idDraw : DrawText := fun i _ _ _ _ _ => i

/-- The spec's priority scenario: tokens `["Alan", "Williams"]`, both with
non-negative confidence. -/
def alanData : OcrData :=
  { nBoxes := 2,
    tok := fun i =>
      if i = 0 then ⟨"Alan", 90, 10, 5, 40, 12⟩ else ⟨"Williams", 91, 55, 5, 80, 12⟩ }

/-- Two tokens whose emission order disagrees with visual order: the second
token lies to the left of the first. -/
def outOfOrderData : OcrData :=
  { nBoxes := 2,
    tok := fun i =>
      if i = 0 then ⟨"Alan", 90, 100, 5, 40, 12⟩ else ⟨"Williams", 91, 10, 5, 50, 12⟩ }

/-- Two tokens that both carry negative confidence. -/
def negConfData : OcrData :=
  { nBoxes := 2,
    tok := fun i =>
      if i = 0 then ⟨"alpha", -1, 0, 0, 10, 10⟩ else ⟨"beta", -1, 12, 0, 10, 10⟩ }

/-! ### Claim theorems -/

/-- C1: given tokens `["Alan", "Williams"]` (non-negative confidence) and
terms `{"Alan Williams" -> "Bob Williams", "Williams" -> "X"}`, span
resolution produces exactly one span, which covers both tokens (start 0,
size 2) with replacement "Bob Williams"; the single-word term "Williams"
consumes no token of its own, and the redaction count is 1. -/
theorem c1_two_word_priority (drawText : DrawText) (img : ImageM) :
    (redactCore drawText img alanData
        [("Alan Williams", "Bob Williams"), ("Williams", "X")] []).spans
      = [⟨0, 2, "Bob Williams", 10, 5, 135, 17, 1⟩] ∧
    (redactCore drawText img alanData
        [("Alan Williams", "Bob Williams"), ("Williams", "X")] []).count = 1 :=
  ⟨rfl, rfl⟩

/-- C2: after the three passes of `redact_image` (modelled by
`redactCore`), the token-index sets of the produced spans are pairwise
disjoint: no token index is consumed by more than one span. -/
theorem c2_spans_disjoint (drawText : DrawText) (img : ImageM) (data : OcrData)
    (nameMap : List (String × String)) (extraRedact : List String) :
    spansDisjoint (redactCore drawText img data nameMap extraRedact).spans :=
  (redactCore_stGood drawText img data nameMap extraRedact).2.1

/-- C9: when the token source reports its backing OCR engine unavailable
(`pytesseract.TesseractNotFoundError`), `redact_image` returns the image
unchanged with a redaction count of 0 instead of propagating the error. -/
theorem c9_engine_unavailable (drawText : DrawText)
    (ocr : ImageM → Except Unit OcrData) (img : ImageM)
    (nameMap : List (String × String)) (extraRedact : List String)
    (h : ocr img = Except.error ()) :
    redact_image drawText ocr img nameMap extraRedact = (img, 0) := by
  unfold redact_image
  rw [h]

/-- Witness for C9 at a concrete failing token source. -/
theorem c9_engine_unavailable_witness :
    redact_image idDraw (fun _ => Except.error ()) img0 [("A B", "C")] ["x"]
      = (img0, 0) :=
  c9_engine_unavailable idDraw (fun _ => Except.error ()) img0 [("A B", "C")] ["x"] rfl

/-- C7: a token with negative confidence is never part of a span produced
by the multi-word name pass (pass 1) or the single-word pass (pass 2),
even on a perfect string match; but a multi-word extra-redact span of
pass 3 may include negative-confidence tokens, shown by a concrete run in
which pass 3 consumes two tokens of confidence -1. -/
theorem c7_confidence_gate :
    (∀ (drawText : DrawText) (img : ImageM) (data : OcrData)
        (nameMap : List (String × String)) (extraRedact : List String) (i : Nat),
        (data.tok i).conf < 0 →
        ∀ s ∈ (redactCore drawText img data nameMap extraRedact).spans,
          s.passNo ≠ 3 → i ∉ spanIdxList s) ∧
    ((redactCore idDraw img0 negConfData [] ["alpha beta"]).spans
        = [⟨0, 2, "", 0, 0, 22, 10, 3⟩] ∧
      (negConfData.tok 0).conf < 0 ∧ (negConfData.tok 1).conf < 0) := by
  constructor
  · intro drawText img data nameMap extraRedact i hconf s hs hpass hmem
    have hc := ((redactCore_stGood drawText img data nameMap extraRedact).2.2
      s hs).2.2.2.2.2 hpass i hmem
    omega
  · exact ⟨rfl, by decide, by decide⟩

/-- Witness for C7: a concrete token with negative confidence, to which the
universal part of the claim theorem applies. -/
theorem c7_confidence_gate_witness :
    (negConfData.tok 0).conf < 0 ∧
      (∀ s ∈ (redactCore idDraw img0 negConfData [] ["alpha beta"]).spans,
        s.passNo ≠ 3 → 0 ∉ spanIdxList s) :=
  ⟨by decide, c7_confidence_gate.1 idDraw img0 negConfData [] ["alpha beta"] 0 (by decide)⟩

/-- Definition following the spec's words for C3 (not the source): the left
edge of the union of the member tokens' boxes, i.e. the minimum left over
the window. -/
def specUnionLeft (tok : Nat → Token) (i k : Nat) : Int :=
  (List.range k).foldl (fun acc j => min acc (tok (i + j)).left) (tok i).left

/-- Definition following the spec's words for C3 (not the source): the
right edge of the union of the member tokens' boxes, i.e. the maximum of
left + width over the window. -/
def specUnionRight (tok : Nat → Token) (i k : Nat) : Int :=
  (List.range k).foldl
    (fun acc j => max acc ((tok (i + j)).left + (tok (i + j)).width))
    ((tok i).left + (tok i).width)

/-- Counterexample to C3: with the two-token window emitted out of visual
order, the source paints the rectangle whose left edge is the FIRST
member's left (100) and whose right edge is the LAST member's
left + width (60) — not the union box, whose left edge is 10 and right
edge 140.  (Top and bottom do agree with the union.) -/
theorem c3_counterexample :
    (redactCore idDraw img0 outOfOrderData [("Alan Williams", "Bob")] []).spans
        = [⟨0, 2, "Bob", 100, 5, 60, 17, 1⟩] ∧
      specUnionLeft outOfOrderData.tok 0 2 = 10 ∧
      specUnionRight outOfOrderData.tok 0 2 = 140 ∧
      (100 : Int) ≠ 10 ∧ (60 : Int) ≠ 140 := by decide

/-- C3 amended: for every matched span, the painted rectangle's top is the
minimum top over the member tokens and its bottom the maximum of
top + height over the member tokens, as the claim states; but its left
edge is the FIRST member token's left and its right edge is the LAST
member token's left + width (the union of member boxes only when the
member order matches visual order). -/
theorem c3_painted_region (drawText : DrawText) (img : ImageM) (data : OcrData)
    (nameMap : List (String × String)) (extraRedact : List String) :
    ∀ s ∈ (redactCore drawText img data nameMap extraRedact).spans,
      s.rx = (data.tok s.start).left ∧
      s.rx2 = (data.tok (s.start + s.size - 1)).left
        + (data.tok (s.start + s.size - 1)).width ∧
      (∀ j < s.size, s.ry ≤ (data.tok (s.start + j)).top) ∧
      (∃ j, j < s.size ∧ s.ry = (data.tok (s.start + j)).top) ∧
      (∀ j < s.size,
        (data.tok (s.start + j)).top + (data.tok (s.start + j)).height ≤ s.ry2) ∧
      (∃ j, j < s.size ∧
        s.ry2 = (data.tok (s.start + j)).top + (data.tok (s.start + j)).height) := by
  intro s hs
  obtain ⟨hsize, hrx, hry, hrx2, hry2, -⟩ :=
    (redactCore_stGood drawText img data nameMap extraRedact).2.2 s hs
  refine ⟨hrx, hrx2, ?_, ?_, ?_, ?_⟩
  · intro j hj
    rw [hry]
    exact minTop_le data.tok s.start s.size j hj
  · rw [hry]
    exact minTop_attained data.tok s.start s.size hsize
  · intro j hj
    rw [hry2]
    exact maxBot_ge data.tok s.start s.size j hj
  · rw [hry2]
    exact maxBot_attained data.tok s.start s.size hsize

/-- Witness for C3's amended statement, at the out-of-order fixture. -/
theorem c3_painted_region_witness :
    (⟨0, 2, "Bob", 100, 5, 60, 17, 1⟩ : Span) ∈
        (redactCore idDraw img0 outOfOrderData [("Alan Williams", "Bob")] []).spans ∧
      (100 : Int) = (outOfOrderData.tok 0).left ∧
      (60 : Int) = (outOfOrderData.tok 1).left + (outOfOrderData.tok 1).width := by
  have hmem : (⟨0, 2, "Bob", 100, 5, 60, 17, 1⟩ : Span) ∈
      (redactCore idDraw img0 outOfOrderData [("Alan Williams", "Bob")] []).spans := by
    decide
  have h := c3_painted_region idDraw img0 outOfOrderData
    [("Alan Williams", "Bob")] [] _ hmem
  exact ⟨hmem, h.1, h.2.1⟩

/-! ### The sort order of the multi-word pass (C4) -/

theorem insertByLen_perm (x : String) (l : List String) :
    (insertByLen x l).Perm (x :: l) := by
  induction l with
  | nil => exact List.Perm.refl _
  | cons y ys ih =>
    unfold insertByLen
    split
    · exact (ih.cons y).trans (List.Perm.swap x y ys)
    · exact List.Perm.refl _

theorem insertByLen_sorted (x : String) (l : List String)
    (h : l.Pairwise (fun a b => b.length ≤ a.length)) :
    (insertByLen x l).Pairwise (fun a b => b.length ≤ a.length) := by
  induction l with
  | nil => simp [insertByLen]
  | cons y ys ih =>
    obtain ⟨hy, hys⟩ := List.pairwise_cons.mp h
    unfold insertByLen
    split
    case isTrue hxy =>
      refine List.pairwise_cons.mpr ⟨?_, ih hys⟩
      intro b hb
      rcases List.mem_cons.mp ((insertByLen_perm x ys).mem_iff.mp hb) with rfl | hb
      · exact hxy
      · exact hy b hb
    case isFalse hxy =>
      refine List.pairwise_cons.mpr ⟨?_, h⟩
      intro b hb
      rcases List.mem_cons.mp hb with rfl | hb
      · exact le_of_not_le hxy
      · exact (hy b hb).trans (le_of_not_le hxy)

theorem foldl_insertByLen_perm :
    ∀ (ks acc : List String),
      (ks.foldl (fun a k => insertByLen k a) acc).Perm (ks ++ acc) := by
  intro ks
  induction ks with
  | nil => intro acc; simp
  | cons k ks ih =>
    intro acc
    simp only [List.foldl_cons, List.cons_append]
    have h1 := ih (insertByLen k acc)
    have h2 : (ks ++ insertByLen k acc).Perm (ks ++ (k :: acc)) :=
      List.Perm.append_left ks (insertByLen_perm k acc)
    have h3 : (ks ++ (k :: acc)).Perm (k :: (ks ++ acc)) := List.perm_middle
    exact h1.trans (h2.trans h3)

theorem foldl_insertByLen_sorted :
    ∀ (ks acc : List String), acc.Pairwise (fun a b => b.length ≤ a.length) →
      (ks.foldl (fun a k => insertByLen k a) acc).Pairwise
        (fun a b => b.length ≤ a.length) := by
  intro ks
  induction ks with
  | nil => intro acc h; exact h
  | cons k ks ih =>
    intro acc h
    exact ih (insertByLen k acc) (insertByLen_sorted k acc h)

theorem sortedNames_perm (keys : List String) : (sortedNames keys).Perm keys := by
  have h := foldl_insertByLen_perm keys []
  simpa [sortedNames] using h

theorem sortedNames_sorted (keys : List String) :
    (sortedNames keys).Pairwise (fun a b => b.length ≤ a.length) :=
  foldl_insertByLen_sorted keys [] List.Pairwise.nil

/-- Counterexample to C4: on the name map
`{"aaaaaaaa bb" -> "r", "a b c" -> "s"}` the multi-word pass scans
"aaaaaaaa bb" (2 words, 11 characters) BEFORE "a b c" (3 words, 5
characters): the processing order of the first pass sorts by string
length only, so the term with more words is scanned second. -/
theorem c4_counterexample :
    (pySplit "aaaaaaaa bb").length = 2 ∧ (pySplit "a b c").length = 3 ∧
      sortedNames (dictKeys (mkLcMap [("aaaaaaaa bb", "r"), ("a b c", "s")]))
        = ["aaaaaaaa bb", "a b c"] := by decide

/-- C4 amended: the multi-word pass processes the name-map keys in
descending order of TOTAL STRING LENGTH (a stable sort of the key list),
not primarily by word count; a term with more words may be scanned after
a longer-string term with fewer words. -/
theorem c4_sorted_by_string_length (nameMap : List (String × String)) :
    (sortedNames (dictKeys (mkLcMap nameMap))).Pairwise
      (fun a b => b.length ≤ a.length) ∧
    (sortedNames (dictKeys (mkLcMap nameMap))).Perm (dictKeys (mkLcMap nameMap)) :=
  ⟨sortedNames_sorted _, sortedNames_perm _⟩

/-! ### The fuzzy matcher (C5, C6) -/

theorem pyLower_length (s : String) : (pyLower s).length = s.length :=
  List.length_map s.toList Char.toLower

theorem eq_empty_of_length_eq_zero {s : String} (h : s.length = 0) : s = "" := by
  cases s with
  | mk data =>
    cases data with
    | nil => rfl
    | cons c cs => simp [String.length] at h

/-- Counterexample to C5: on the pair of empty strings the two sides are
trivially equal case-insensitively, yet `_fuzzy_match` returns False
because of its emptiness guard, so the claimed equivalence fails there. -/
theorem c5_counterexample :
    ¬ (fuzzyMatch "" "" = true ↔ pyLower "" = pyLower "") := by decide

/-- C5 amended: for every observed string `o` and target `t` of length at
most 3, PROVIDED `o` and `t` are not both empty, `_fuzzy_match o t`
returns true iff `o` and `t` are equal case-insensitively; in particular
a one-character substitution never matches such a target. -/
theorem c5_short_target (o t : String) (hlen : t.length ≤ 3)
    (hne : ¬ (o = "" ∧ t = "")) :
    fuzzyMatch o t = true ↔ pyLower o = pyLower t := by
  unfold fuzzyMatch
  by_cases hA : o = "" ∨ t = ""
  · rw [if_pos hA]
    simp only [Bool.false_eq_true, false_iff]
    intro heq
    have hlen2 : o.length = t.length := by
      have h := congrArg String.length heq
      rwa [pyLower_length, pyLower_length] at h
    rcases hA with rfl | rfl
    · exact hne ⟨rfl, eq_empty_of_length_eq_zero (by simpa using hlen2.symm)⟩
    · exact hne ⟨eq_empty_of_length_eq_zero (by simpa using hlen2), rfl⟩
  · rw [if_neg hA]
    by_cases heq : pyLower o = pyLower t
    · simp [heq]
    · rw [if_neg heq]
      by_cases hd : 2 < lenDiff o.length t.length
      · simp [hd, heq]
      · simp [hd, hlen, heq]

/-- Witness for C5's amended statement: the length-2 target "of" matches
"Of" exactly case-insensitively. -/
theorem c5_short_target_witness :
    "of".length ≤ 3 ∧ ¬ ("Of" = "" ∧ "of" = "") ∧ fuzzyMatch "Of" "of" = true :=
  ⟨by decide, by decide, (c5_short_target "Of" "of" (by decide) (by decide)).mpr (by decide)⟩

/-- C6: for observed `o` and target `t` not equal case-insensitively, with
`t` of length at least 4 and the lengths within 2 of each other,
`_fuzzy_match o t` is true iff the number of positions below the shorter
length at which the lowercased characters agree, divided by the shorter
length, is at least 0.75. -/
theorem c6_overlap_ratio (o t : String) (hne : ¬ pyLower o = pyLower t)
    (hlen : 4 ≤ t.length) (hdiff : lenDiff o.length t.length ≤ 2) :
    fuzzyMatch o t = true ↔
      (3 : ℚ) / 4 ≤
        (countEq (pyLower o).toList (pyLower t).toList : ℚ) /
          ((min o.length t.length : Nat) : ℚ) := by
  have hlb : t.length ≤ o.length + 2 ∧ o.length ≤ t.length + 2 := by
    unfold lenDiff at hdiff
    rcases Nat.le_total o.length t.length with h | h
    · rw [Nat.max_eq_right h, Nat.min_eq_left h] at hdiff
      omega
    · rw [Nat.max_eq_left h, Nat.min_eq_right h] at hdiff
      omega
  have h0 : ("" : String).length = 0 := rfl
  have ho : ¬ o = "" := by
    intro h
    rw [h] at hlb
    omega
  have ht : ¬ t = "" := by
    intro h
    rw [h] at hlen
    omega
  have hs : 0 < min o.length t.length := by
    rcases Nat.le_total o.length t.length with h | h
    · rw [Nat.min_eq_left h]
      omega
    · rw [Nat.min_eq_right h]
      omega
  unfold fuzzyMatch
  rw [if_neg (by tauto : ¬ (o = "" ∨ t = ""))]
  rw [if_neg hne]
  rw [if_neg (by omega : ¬ 2 < lenDiff o.length t.length)]
  rw [if_neg (by omega : ¬ t.length ≤ 3)]
  show decide (3 * min o.length t.length ≤
      4 * countEq (pyLower o).toList (pyLower t).toList) = true ↔ _
  rw [decide_eq_true_eq]
  rw [div_le_div_iff₀ (by norm_num : (0:ℚ) < 4)
    (by exact_mod_cast hs : (0:ℚ) < ((min o.length t.length : Nat) : ℚ))]
  rw [mul_comm ((countEq (pyLower o).toList (pyLower t).toList : Nat) : ℚ) 4]
  exact_mod_cast Iff.rfl

/-- Witness for C6: "abcd" against target "abcx" agrees at 3 of 4
positions, ratio 3/4, so it matches. -/
theorem c6_overlap_ratio_witness :
    (¬ pyLower "abcd" = pyLower "abcx") ∧ 4 ≤ "abcx".length ∧
      lenDiff "abcd".length "abcx".length ≤ 2 ∧ fuzzyMatch "abcd" "abcx" = true := by
  refine ⟨by decide, by decide, by decide, ?_⟩
  refine (c6_overlap_ratio "abcd" "abcx" (by decide) (by decide) (by decide)).mpr ?_
  rw [show countEq (pyLower "abcd").toList (pyLower "abcx").toList = 3 from by decide]
  rw [show min "abcd".length "abcx".length = 4 from by decide]
  norm_num

/-! ### The no-match frame property (C8) -/

/-- The window check of the first pass ignoring the consumption set. -/
def pureWindowOk1 (tok : Nat → Token) (i : Nat) : List String → Nat → Bool
  | [], _ => true
  | nw :: rest, j =>
    if !(fuzzyMatch (pyStrip (tok (i + j)).text) nw) then false
    else if (tok (i + j)).conf < 0 then false
    else pureWindowOk1 tok i rest (j + 1)

/-- The window check of the third pass ignoring the consumption set. -/
def pureWindowOk3 (tok : Nat → Token) (i : Nat) : List String → Nat → Bool
  | [], _ => true
  | tw :: rest, j =>
    if !(fuzzyMatch (pyStrip (tok (i + j)).text) tw) then false
    else pureWindowOk3 tok i rest (j + 1)

theorem passOneWindowOk_nil_used (tok : Nat → Token) (i : Nat) :
    ∀ (nws : List String) (j : Nat),
      passOneWindowOk tok [] i nws j = pureWindowOk1 tok i nws j := by
  intro nws
  induction nws with
  | nil => intro j; rfl
  | cons nw rest ih =>
    intro j
    simp [passOneWindowOk, pureWindowOk1, ih]

theorem passThreeWindowOk_nil_used (tok : Nat → Token) (i : Nat) :
    ∀ (tws : List String) (j : Nat),
      passThreeWindowOk tok [] i tws j = pureWindowOk3 tok i tws j := by
  intro tws
  induction tws with
  | nil => intro j; rfl
  | cons tw rest ih =>
    intro j
    simp [passThreeWindowOk, pureWindowOk3, ih]

theorem passOneStep_noop (drawText : DrawText) (tok : Nat → Token)
    (nws : List String) (repl : String) (st : RState) (i : Nat)
    (hused : st.used = []) (hw : pureWindowOk1 tok i nws 0 = false) :
    passOneStep drawText tok nws repl st i = st := by
  unfold passOneStep
  simp only [hused, passOneWindowOk_nil_used, hw]
  simp

theorem passTwoStep_noop (drawText : DrawText) (tok : Nat → Token)
    (lcMap : List (String × String)) (extraLc : List String) (st : RState) (i : Nat)
    (hused : st.used = [])
    (hname : findNameRepl lcMap (pyLower (pyStrip (tok i).text)) = none)
    (hextra : findExtraMatch extraLc (pyLower (pyStrip (tok i).text)) = false) :
    passTwoStep drawText tok lcMap extraLc st i = st := by
  unfold passTwoStep
  simp only [hused, hname, hextra]
  simp

theorem passThreeStep_noop (tok : Nat → Token)
    (tws : List String) (st : RState) (i : Nat)
    (hused : st.used = []) (hw : pureWindowOk3 tok i tws 0 = false) :
    passThreeStep tok tws st i = st := by
  unfold passThreeStep
  simp only [hused, passThreeWindowOk_nil_used, hw]
  simp

/-- C8 hypothesis: no token of the stream matches any term in any of the
three passes — every multi-word name window fails its (confidence-gated)
check somewhere, no token's lowered text matches a single-word name or
extra-redact term, and every multi-word extra-redact window fails its
check somewhere. -/
def NoTokenMatches (data : OcrData) (nameMap : List (String × String))
    (extraRedact : List String) : Prop :=
  (∀ name ∈ dictKeys (mkLcMap nameMap), 2 ≤ (pySplit name).length →
    ∀ i < data.nBoxes, i + (pySplit name).length ≤ data.nBoxes →
      pureWindowOk1 data.tok i (pySplit name) 0 = false) ∧
  (∀ i < data.nBoxes,
    findNameRepl (mkLcMap nameMap) (pyLower (pyStrip (data.tok i).text)) = none ∧
    findExtraMatch (extraRedact.map pyLower) (pyLower (pyStrip (data.tok i).text))
      = false) ∧
  (∀ term ∈ extraRedact.map pyLower, 2 ≤ (pySplit term).length →
    ∀ i < data.nBoxes, i + (pySplit term).length ≤ data.nBoxes →
      pureWindowOk3 data.tok i (pySplit term) 0 = false)

/-- C8: when no token matches any term in any pass, the engine leaves the
state untouched: the returned image is the input image, no span is
painted, and the redaction count is 0. -/
theorem c8_no_match (drawText : DrawText) (img : ImageM) (data : OcrData)
    (nameMap : List (String × String)) (extraRedact : List String)
    (h : NoTokenMatches data nameMap extraRedact) :
    redactCore drawText img data nameMap extraRedact
      = { img := img, used := [], spans := [], count := 0 } := by
  obtain ⟨hA, hB, hC⟩ := h
  have hp1 : passOne drawText data (mkLcMap nameMap)
      { img := img, used := [], spans := [], count := 0 }
      = { img := img, used := [], spans := [], count := 0 } := by
    unfold passOne
    apply foldl_fix
    intro name hname
    unfold passOneTerm
    by_cases hn : (pySplit name).length < 2
    · rw [if_pos hn]
    · rw [if_neg hn]
      apply foldl_fix
      intro i hi
      have hi' := List.mem_range.mp hi
      exact passOneStep_noop drawText data.tok _ _ _ i rfl
        (hA name ((sortedNames_perm _).mem_iff.mp hname) (by omega) i (by omega)
          (by omega))
  have hp2 : passTwo drawText data (mkLcMap nameMap) (extraRedact.map pyLower)
      { img := img, used := [], spans := [], count := 0 }
      = { img := img, used := [], spans := [], count := 0 } := by
    unfold passTwo
    apply foldl_fix
    intro i hi
    have hi' := List.mem_range.mp hi
    exact passTwoStep_noop drawText data.tok _ _ _ i rfl (hB i hi').1 (hB i hi').2
  have hp3 : passThree data (extraRedact.map pyLower)
      { img := img, used := [], spans := [], count := 0 }
      = { img := img, used := [], spans := [], count := 0 } := by
    unfold passThree
    apply foldl_fix
    intro term hterm
    unfold passThreeTerm
    by_cases hn : (pySplit term).length < 2
    · rw [if_pos hn]
    · rw [if_neg hn]
      apply foldl_fix
      intro i hi
      have hi' := List.mem_range.mp hi
      exact passThreeStep_noop data.tok _ _ i rfl
        (hC term hterm (by omega) i (by omega) (by omega))
  unfold redactCore
  rw [hp1, hp2]
  exact hp3

/-- A one-token stream that no configured term matches. -/
def helloData : OcrData := { nBoxes := 1, tok := fun _ => ⟨"hello", 90, 0, 0, 30, 10⟩ }

/-- Witness for C8 at a concrete non-matching configuration. -/
theorem c8_no_match_witness :
    NoTokenMatches helloData [("Alan Williams", "Bob")] ["xyzzy"] ∧
      (redactCore idDraw img0 helloData [("Alan Williams", "Bob")] ["xyzzy"]).img
        = img0 ∧
      (redactCore idDraw img0 helloData [("Alan Williams", "Bob")] ["xyzzy"]).spans
        = [] ∧
      (redactCore idDraw img0 helloData [("Alan Williams", "Bob")] ["xyzzy"]).count
        = 0 := by
  have hnm : NoTokenMatches helloData [("Alan Williams", "Bob")] ["xyzzy"] := by
    unfold NoTokenMatches
    decide
  have h := c8_no_match idDraw img0 helloData [("Alan Williams", "Bob")] ["xyzzy"] hnm
  exact ⟨hnm, by rw [h], by rw [h], by rw [h]⟩

/-! ### Background color sampling (C10) -/

/-- Index of the first occurrence of a color in the sampled pixel list. -/
def fIdx (l : List Color) (c : Color) : Nat := l.findIdx (fun p => decide (p = c))

theorem fIdx_cons (c : Color) (l : List Color) (a : Color) :
    fIdx (c :: l) a = if c = a then 0 else fIdx l a + 1 := by
  by_cases h : c = a <;> simp [fIdx, List.findIdx_cons, h]

theorem mem_dedupKeys : ∀ (l : List Color), ∀ c, c ∈ dedupKeys l ↔ c ∈ l := by
  intro l
  induction l using dedupKeys.induct with
  | case1 => intro c; simp [dedupKeys]
  | case2 p ps ih =>
    intro c
    simp only [dedupKeys, List.mem_cons]
    rw [ih c, List.mem_filter]
    constructor
    · rintro (rfl | ⟨hc, _⟩)
      · exact Or.inl rfl
      · exact Or.inr hc
    · rintro (rfl | hc)
      · exact Or.inl rfl
      · by_cases hcp : c = p
        · exact Or.inl hcp
        · exact Or.inr ⟨hc, by simpa using hcp⟩

theorem fIdx_filter_lt (q : Color → Bool) :
    ∀ (ps : List Color) (a b : Color), q a = true → q b = true →
      fIdx (ps.filter q) a < fIdx (ps.filter q) b → fIdx ps a < fIdx ps b := by
  intro ps
  induction ps with
  | nil => intro a b _ _ h; exact absurd h (by simp [fIdx])
  | cons c cs ih =>
    intro a b ha hb h
    by_cases hqc : q c = true
    · rw [List.filter_cons_of_pos hqc] at h
      rw [fIdx_cons, fIdx_cons] at h
      rw [fIdx_cons, fIdx_cons]
      by_cases hca : c = a
      · rw [if_pos hca] at h ⊢
        by_cases hcb : c = b
        · rw [if_pos hcb] at h
          omega
        · rw [if_neg hcb]
          omega
      · rw [if_neg hca] at h ⊢
        by_cases hcb : c = b
        · rw [if_pos hcb] at h
          omega
        · rw [if_neg hcb] at h ⊢
          have := ih a b ha hb (by omega)
          omega
    · rw [List.filter_cons_of_neg (by simpa using hqc)] at h
      have hca : ¬ c = a := fun e => hqc (by rw [e]; exact ha)
      have hcb : ¬ c = b := fun e => hqc (by rw [e]; exact hb)
      rw [fIdx_cons, fIdx_cons, if_neg hca, if_neg hcb]
      have := ih a b ha hb h
      omega

theorem dedupKeys_sorted_fIdx : ∀ (l : List Color),
    (dedupKeys l).Pairwise (fun a b => fIdx l a < fIdx l b) := by
  intro l
  induction l using dedupKeys.induct with
  | case1 => simp [dedupKeys]
  | case2 p ps ih =>
    simp only [dedupKeys]
    rw [List.pairwise_cons]
    constructor
    · intro b hb
      obtain ⟨hbps, hbne⟩ := List.mem_filter.mp ((mem_dedupKeys _ b).mp hb)
      have hbnep : ¬ p = b := fun e => by simp [e.symm] at hbne
      rw [fIdx_cons, fIdx_cons, if_pos rfl, if_neg hbnep]
      omega
    · refine ih.imp_of_mem ?_
      intro a b hamem hbmem hab
      obtain ⟨haps, hane⟩ := List.mem_filter.mp ((mem_dedupKeys _ a).mp hamem)
      obtain ⟨hbps, hbne⟩ := List.mem_filter.mp ((mem_dedupKeys _ b).mp hbmem)
      have hpa : ¬ p = a := fun e => by simp [e.symm] at hane
      have hpb : ¬ p = b := fun e => by simp [e.symm] at hbne
      have h2 := fIdx_filter_lt (fun d => decide (d ≠ p)) ps a b hane hbne hab
      rw [fIdx_cons, fIdx_cons, if_neg hpa, if_neg hpb]
      omega

theorem pickFirstMax_mem (cnt : Color → Nat) :
    ∀ (ks : List Color) (b : Color), pickFirstMax cnt b ks ∈ b :: ks := by
  intro ks
  induction ks with
  | nil => intro b; simp [pickFirstMax]
  | cons k ks ih =>
    intro b
    unfold pickFirstMax
    split
    · exact List.mem_cons_of_mem b (ih k)
    · rcases List.mem_cons.mp (ih b) with h | h
      · rw [h]
        exact List.mem_cons_self b (k :: ks)
      · exact List.mem_cons_of_mem b (List.mem_cons_of_mem k h)

theorem pickFirstMax_le (cnt : Color → Nat) :
    ∀ (ks : List Color) (b : Color) (x : Color), x ∈ b :: ks →
      cnt x ≤ cnt (pickFirstMax cnt b ks) := by
  intro ks
  induction ks with
  | nil =>
    intro b x hx
    rcases List.mem_cons.mp hx with rfl | h
    · simp [pickFirstMax]
    · simp at h
  | cons k ks ih =>
    intro b x hx
    unfold pickFirstMax
    split
    case isTrue hlt =>
      rcases List.mem_cons.mp hx with rfl | hx'
      · exact le_of_lt (lt_of_lt_of_le hlt (ih k k (List.mem_cons_self k ks)))
      · exact ih k x hx'
    case isFalse hge =>
      rcases List.mem_cons.mp hx with rfl | hx'
      · exact ih x x (List.mem_cons_self x ks)
      · rcases List.mem_cons.mp hx' with rfl | hx2
        · exact le_trans (le_of_not_lt hge) (ih b b (List.mem_cons_self b ks))
        · exact ih b x (List.mem_cons_of_mem b hx2)

theorem pickFirstMax_eq_or_lt (cnt : Color → Nat) :
    ∀ (ks : List Color) (b : Color),
      pickFirstMax cnt b ks = b ∨ cnt b < cnt (pickFirstMax cnt b ks) := by
  intro ks
  induction ks with
  | nil => intro b; exact Or.inl rfl
  | cons k ks ih =>
    intro b
    unfold pickFirstMax
    split
    case isTrue hlt =>
      rcases ih k with h | h
      · rw [h]
        exact Or.inr hlt
      · exact Or.inr (hlt.trans h)
    case isFalse hge => exact ih b

theorem pickFirstMax_first (cnt : Color → Nat) (fI : Color → Nat) :
    ∀ (ks : List Color) (b : Color),
      (b :: ks).Pairwise (fun a c => fI a < fI c) →
      ∀ x ∈ b :: ks, cnt x = cnt (pickFirstMax cnt b ks) →
        fI (pickFirstMax cnt b ks) ≤ fI x := by
  intro ks
  induction ks with
  | nil =>
    intro b _ x hx _
    rcases List.mem_cons.mp hx with rfl | h
    · simp [pickFirstMax]
    · simp at h
  | cons k ks ih =>
    intro b hpw x hx hcnt
    obtain ⟨hb, hpw2⟩ := List.pairwise_cons.mp hpw
    unfold pickFirstMax at hcnt ⊢
    by_cases hlt : cnt b < cnt k
    · rw [if_pos hlt] at hcnt ⊢
      rcases List.mem_cons.mp hx with rfl | hx'
      · exfalso
        have hk : cnt k ≤ cnt (pickFirstMax cnt k ks) :=
          pickFirstMax_le cnt ks k k (List.mem_cons_self k ks)
        omega
      · exact ih k hpw2 x hx' hcnt
    · rw [if_neg hlt] at hcnt ⊢
      have hpwb : (b :: ks).Pairwise (fun a c => fI a < fI c) := by
        rw [List.pairwise_cons]
        exact ⟨fun c hc => hb c (List.mem_cons_of_mem k hc),
          (List.pairwise_cons.mp hpw2).2⟩
      rcases List.mem_cons.mp hx with rfl | hx'
      · exact ih x hpwb x (List.mem_cons_self x ks) hcnt
      · rcases List.mem_cons.mp hx' with rfl | hx2
        · rcases pickFirstMax_eq_or_lt cnt ks b with heq | hlt2
          · rw [heq]
            exact le_of_lt (hb x (List.mem_cons_self x ks))
          · exfalso
            have hxb : cnt x ≤ cnt b := le_of_not_lt hlt
            omega
        · exact ih b hpwb x (List.mem_cons_of_mem b hx2) hcnt

/-- C10: when both clamped border-sampling ranges are empty the sampler
returns the default `(255, 255, 255)`; and whenever at least one pixel is
sampled it returns a most frequent sampled color, ties broken by first
occurrence in sampling order. -/
theorem c10_bg_sample (img : ImageM) (x y w h : Int) :
    (intRange (max 0 (x - marginDefault)) (min img.width (x + w + marginDefault)) = []
        ∧ intRange (max 0 (y - marginDefault)) (min img.height (y + h + marginDefault))
          = [] →
      sample_bg_color img x y w h = (255, 255, 255)) ∧
    (samplePixels img x y w h ≠ [] →
      sample_bg_color img x y w h ∈ samplePixels img x y w h ∧
      (∀ c ∈ samplePixels img x y w h,
        countOcc (samplePixels img x y w h) c
          ≤ countOcc (samplePixels img x y w h) (sample_bg_color img x y w h)) ∧
      (∀ c ∈ samplePixels img x y w h,
        countOcc (samplePixels img x y w h) c
            = countOcc (samplePixels img x y w h) (sample_bg_color img x y w h) →
          fIdx (samplePixels img x y w h) (sample_bg_color img x y w h)
            ≤ fIdx (samplePixels img x y w h) c)) := by
  constructor
  · rintro ⟨h1, h2⟩
    have hp : samplePixels img x y w h = [] := by
      simp only [samplePixels]
      rw [h1, h2]
      simp
    simp only [sample_bg_color]
    rw [hp]
    simp [dedupKeys]
  · intro hne
    cases hd : dedupKeys (samplePixels img x y w h) with
    | nil =>
      exfalso
      cases hp : samplePixels img x y w h with
      | nil => exact hne hp
      | cons p ps =>
        rw [hp] at hd
        simp [dedupKeys] at hd
    | cons b ks =>
      have hres : sample_bg_color img x y w h
          = pickFirstMax (countOcc (samplePixels img x y w h)) b ks := by
        simp only [sample_bg_color]
        rw [hd]
      have hmem1 : pickFirstMax (countOcc (samplePixels img x y w h)) b ks ∈ b :: ks :=
        pickFirstMax_mem _ ks b
      rw [← hd] at hmem1
      have hmemp := (mem_dedupKeys (samplePixels img x y w h) _).mp hmem1
      have hsort := dedupKeys_sorted_fIdx (samplePixels img x y w h)
      rw [hd] at hsort
      refine ⟨hres ▸ hmemp, ?_, ?_⟩
      · intro c hc
        have hc2 := (mem_dedupKeys (samplePixels img x y w h) c).mpr hc
        rw [hd] at hc2
        rw [hres]
        exact pickFirstMax_le _ ks b c hc2
      · intro c hc hcnt
        have hc2 := (mem_dedupKeys (samplePixels img x y w h) c).mpr hc
        rw [hd] at hc2
        rw [hres] at hcnt ⊢
        exact pickFirstMax_first _ (fIdx (samplePixels img x y w h)) ks b hsort c hc2 hcnt

/-- A one-pixel image of a fixed non-white color. -/
def imgW1 : ImageM := { width := 1, height := 1, pix := fun _ _ => (7, 8, 9) }

/-- Witness for C10: the degenerate image yields the default white, and on
a real one-pixel image the returned color is a sampled pixel. -/
theorem c10_bg_sample_witness :
    sample_bg_color img0 0 0 1 1 = (255, 255, 255) ∧
      sample_bg_color imgW1 0 0 1 1 ∈ samplePixels imgW1 0 0 1 1 := by
  constructor
  · exact (c10_bg_sample img0 0 0 1 1).1 ⟨by decide, by decide⟩
  · exact ((c10_bg_sample imgW1 0 0 1 1).2 (by decide)).1

end AnonPdf
